import Mathlib

/-!
# Verification of `empty_dir_manager.py`

Shallow embedding of the core of `empty_dir_manager.py` (class
`EmptyDirectoryManager`): the bottom-up directory traversal
(`find_empty_dirs`, built on `os.walk(root, topdown=False)`), the three
batch-processor operations (`list_empty_dirs`, `count_empty_dirs`,
`trash_empty_dirs`) and the per-batch trash loop (`_process_batch`).

Modelling decisions, each tied to the source:

* A directory path is a list of name components (`DirPath`); the resolved
  root path (`self.root_path = Path(root_path).resolve()`) is the `root`
  parameter, and every walked path is `root ++ relative components`.
* The filesystem snapshot seen by `os.walk`'s directory listings is an
  inductive tree `FSTree`: direct file names and named subtrees.
* `os.walk(root_str, topdown=False)` is `walkFrom`: for each directory it
  emits the walks of its subdirectories (in listing order) followed by the
  directory's own `(dirpath, dirnames, filenames)` entry.  `os.walk` is
  called with the default `onerror=None`, so a `scandir` failure
  (e.g. permission denied) on a directory makes `os.walk` silently skip
  that directory and its whole subtree — nothing is raised into the
  generator body and nothing is printed.  This is the `canRead` oracle: an
  unreadable directory contributes no entries at all.  Consequently the
  `except PermissionError` / `except Exception` handlers wrapping the loop
  in `find_empty_dirs` (lines 81–86) are not reachable from enumeration
  errors, and the traversal emits no diagnostic output.
* `subdir.exists()` (line 76) is the oracle `ex : DirPath → Bool`: the
  on-disk existence of a path at the moment of the re-check.  For a run
  over a fixed filesystem state it is `staticExists`, i.e. membership in
  the snapshot tree.
* `send2trash.send2trash` and the `dir_path.exists()` pre-check in
  `_process_batch` are oracles `cap : DirPath → TrashOutcome` and
  `ex2 : DirPath → Bool` (the disk state at trash time).
* `verbose` guards only `print` calls in the source; printed lines are
  returned explicitly so that theorems can speak about them.
-/

namespace EmptyDirManager

/-- A directory-name or file-name component. -/
abbrev Name := String

/-- A directory path as its list of name components (`Path` in the source,
after `resolve()`: absolute, canonical). -/
abbrev DirPath := List Name

/-- A filesystem snapshot: a directory with its direct file names and its
named direct subdirectories, in listing order. -/
inductive FSTree where
  | node (files : List Name) (subdirs : List (Name × FSTree))
deriving Repr

/-- One triple produced by `os.walk`: `(dirpath, dirnames, filenames)`. -/
structure WalkEntry where
  path : DirPath
  dirnames : List Name
  filenames : List Name
deriving Repr, DecidableEq

mutual

/-- `os.walk(str(p), topdown=False)` over snapshot `t` rooted at path `p`,
with `canRead q = false` meaning `scandir(q)` raises: with the default
`onerror=None` the directory and its whole subtree are silently skipped.
Bottom-up: subdirectory walks first (listing order), then the directory's
own entry. -/
def walkFrom (canRead : DirPath → Bool) (p : DirPath) : FSTree → List WalkEntry
  | .node files subdirs =>
    if canRead p then
      walkChildren canRead p subdirs ++ [⟨p, subdirs.map Prod.fst, files⟩]
    else []

/-- The concatenated walks of the subdirectories of a directory at `p`. -/
def walkChildren (canRead : DirPath → Bool) (p : DirPath) :
    List (Name × FSTree) → List WalkEntry
  | [] => []
  | (n, t) :: rest => walkFrom canRead (p ++ [n]) t ++ walkChildren canRead p rest

end

/-- The body of the loop in `find_empty_dirs` (lines 71–79): skip the entry
if `filenames` is non-empty; if `dirnames` is non-empty, re-resolve each
name to a full path and skip if any still exists; otherwise yield the
path. -/
def keepEntry (ex : DirPath → Bool) (e : WalkEntry) : Option DirPath :=
  if e.filenames.isEmpty = false then none
  else if e.dirnames.isEmpty = false then
    if e.dirnames.any (fun d => ex (e.path ++ [d])) then none
    else some e.path
  else some e.path

/-- `EmptyDirectoryManager.find_empty_dirs` (lines 57–86): the sequence of
paths yielded by the generator, as a list.  The `try/except` handlers of
lines 81–86 cannot fire under this model (see the module comment), so the
generator runs the loop to completion and produces no diagnostics. -/
def find_empty_dirs (ex : DirPath → Bool) (canRead : DirPath → Bool)
    (root : DirPath) (t : FSTree) : List DirPath :=
  (walkFrom canRead root t).filterMap (keepEntry ex)

/-- Lookup of the subtree at a relative path in a snapshot (the first
matching name at each step, as directory listings have at most one entry
per name). -/
def lookup : FSTree → DirPath → Option FSTree
  | t, [] => some t
  | .node _ subdirs, n :: rest =>
    match subdirs.find? (fun s => s.1 == n) with
    | some s => lookup s.2 rest
    | none => none

/-- `Path.exists()` against a fixed filesystem state: the queried absolute
path lies under `root` and resolves in the snapshot. -/
def staticExists (root : DirPath) (t : FSTree) (q : DirPath) : Bool :=
  root.isPrefixOf q && (lookup t (q.drop root.length)).isSome

mutual

/-- Well-formedness of a snapshot: within each directory the subdirectory
names are pairwise distinct (as in a real filesystem). -/
def nodupNames : FSTree → Bool
  | .node _ subdirs =>
    decide (subdirs.map Prod.fst).Nodup && nodupNamesList subdirs

/-- `nodupNames` over a list of named subtrees. -/
def nodupNamesList : List (Name × FSTree) → Bool
  | [] => true
  | s :: rest => nodupNames s.2 && nodupNamesList rest

end

/-- Configuration fields of `EmptyDirectoryManager.__init__` used by the
core: the resolved root path, the batch size, and the verbosity flag. -/
structure EmptyDirectoryManager where
  root_path : DirPath
  batch_size : Nat
  verbose : Bool

/-- Outcome of one `send2trash.send2trash(str(dir_path))` call: success, or
one of the three exception classes distinguished by `_process_batch`. -/
inductive TrashOutcome where
  | ok
  | permDenied
  | notFound
  | otherError
deriving Repr, DecidableEq

/-- One diagnostic / progress line printed by the batch processor. -/
inductive LogLine where
  | movedTo (p : DirPath)
  | permissionDenied (p : DirPath)
  | errorProcessing (p : DirPath)
  | progress (count : Nat)
  | summary (success total : Nat)
deriving Repr, DecidableEq

/-- `EmptyDirectoryManager._process_batch` (lines 148–181): for each path in
the batch, skip it if it no longer exists (`ex2`), otherwise attempt the
trash capability (`cap`); success prints (when verbose) and increments the
counter, `PermissionError` and any other error print (when verbose) and are
skipped, `FileNotFoundError` is silently skipped.  Returns the success count
and the printed lines. -/
def process_batch (verbose : Bool) (ex2 : DirPath → Bool)
    (cap : DirPath → TrashOutcome) (batch : List DirPath) : Nat × List LogLine :=
  batch.foldl
    (fun acc p =>
      if ex2 p = false then acc
      else
        match cap p with
        | .ok => (acc.1 + 1, acc.2 ++ if verbose then [.movedTo p] else [])
        | .permDenied => (acc.1, acc.2 ++ if verbose then [.permissionDenied p] else [])
        | .notFound => acc
        | .otherError => (acc.1, acc.2 ++ if verbose then [.errorProcessing p] else []))
    (0, [])

/-- The result of one `trash_empty_dirs` run: the batches handed to
`_process_batch` in order, the total number of directories observed, the
returned success count, and the printed lines. -/
structure TrashRun where
  flushes : List (List DirPath)
  count : Nat
  success_count : Nat
  printed : List LogLine
deriving Repr, DecidableEq

/-- `EmptyDirectoryManager.trash_empty_dirs` (lines 110–146), as built: the
`for` loop only increments `count` and appends to `batch`; the
`len(batch) >= self.batch_size` check (line 130) is at the indentation
level of the `for`, i.e. OUTSIDE the loop body, so it runs once, after the
generator is fully drained, with `batch` holding every yielded path.  If it
fires, the whole accumulated batch is flushed and `batch` is reset, so the
following `if batch:` (line 140) does not fire; otherwise any non-empty
remainder is flushed by line 140.  `fiveSecondsElapsed` abstracts the
wall-clock test of line 135. -/
def trash_empty_dirs (m : EmptyDirectoryManager) (ex canRead ex2 : DirPath → Bool)
    (cap : DirPath → TrashOutcome) (t : FSTree) (fiveSecondsElapsed : Bool) :
    TrashRun :=
  let found := find_empty_dirs ex canRead m.root_path t
  let count := found.length
  let batch := found
  if batch.length ≥ m.batch_size then
    let r := process_batch m.verbose ex2 cap batch
    let progressLog :=
      if m.verbose && fiveSecondsElapsed then [LogLine.progress count] else []
    let summary := if m.verbose then [LogLine.summary r.1 count] else []
    ⟨[batch], count, r.1, r.2 ++ progressLog ++ summary⟩
  else if batch.isEmpty = false then
    let r := process_batch m.verbose ex2 cap batch
    let summary := if m.verbose then [LogLine.summary r.1 count] else []
    ⟨[batch], count, r.1, r.2 ++ summary⟩
  else
    ⟨[], count, 0, if m.verbose then [LogLine.summary 0 count] else []⟩

/-- The result of one `list_empty_dirs` run: the paths printed, in order,
and the returned count. -/
structure ListRun where
  printed : List DirPath
  count : Nat
deriving Repr, DecidableEq

/-- `EmptyDirectoryManager.list_empty_dirs` (lines 88–99): print every
yielded directory and count them. -/
def list_empty_dirs (m : EmptyDirectoryManager) (ex canRead : DirPath → Bool)
    (t : FSTree) : ListRun :=
  (find_empty_dirs ex canRead m.root_path t).foldl
    (fun acc d => ⟨acc.printed ++ [d], acc.count + 1⟩) ⟨[], 0⟩

/-- `EmptyDirectoryManager.count_empty_dirs` (lines 101–108):
`sum(1 for _ in self.find_empty_dirs())`. -/
def count_empty_dirs (m : EmptyDirectoryManager) (ex canRead : DirPath → Bool)
    (t : FSTree) : Nat :=
  ((find_empty_dirs ex canRead m.root_path t).map (fun _ => 1)).sum

mutual

/-- Whether a snapshot contains a regular file anywhere (directly or in
some descendant directory). -/
def hasAnyFile : FSTree → Bool
  | .node files subdirs => !files.isEmpty || hasAnyFileList subdirs

/-- `hasAnyFile` over a list of named subtrees. -/
def hasAnyFileList : List (Name × FSTree) → Bool
  | [] => false
  | s :: rest => hasAnyFile s.2 || hasAnyFileList rest

end

/-! ### Concrete snapshots used to exercise the definitions
(spec scenarios A, B, D and the permission scenario E). -/

/-- An empty leaf directory. -/
def leafDir : FSTree := .node [] []

/-- Scenario B: the root contains only the nested empty chain `x/y/z`. -/
def chainTree : FSTree :=
  .node [] [("x", .node [] [("y", .node [] [("z", leafDir)])])]

/-- Scenario D: five empty leaf directories under the root. -/
def fiveLeafTree : FSTree :=
  .node [] [("d1", leafDir), ("d2", leafDir), ("d3", leafDir),
            ("d4", leafDir), ("d5", leafDir)]

/-- Scenario A: `a/` empty, `b/file.txt`, `b/sub/` empty. -/
def scenATree : FSTree :=
  .node [] [("a", leafDir), ("b", .node ["file.txt"] [("sub", leafDir)])]

/-- Scenario E: readable empty `a/` and `c/`, and `bad/` (which holds a
file) whose listing raises a permission error. -/
def permTree : FSTree :=
  .node [] [("a", leafDir), ("bad", .node ["f"] []), ("c", leafDir)]

/-- A fully readable filesystem: `scandir` never raises. -/
def readAll : DirPath → Bool := fun _ => true

/-- Scenario E's readability: only `root/bad` is unreadable. -/
def permOracle : DirPath → Bool := fun q => q != ["root", "bad"]

/-- Scenario E variant where the unreadable directory is itself empty:
`a/`, `bad/` (unreadable) and `c/`, all with no files and no
subdirectories. -/
def permEmptyTree : FSTree :=
  .node [] [("a", leafDir), ("bad", leafDir), ("c", leafDir)]

/-- The diagnostic lines printed by the exception handlers of
`find_empty_dirs` (lines 81–86), for a traversal with the given oracles.
The walk primitive is `os.walk` with its default `onerror=None`, which
catches and discards every `OSError` (permission errors included) raised
while listing a directory, pruning that subtree and continuing with the
rest of the walk; the loop body itself performs only total operations in
this model (list emptiness tests and the `Path.exists` oracle).  Hence no
exception ever reaches the `except PermissionError` / `except Exception`
handlers and the traversal prints nothing, for every oracle, root and
snapshot.  (Had an exception propagated to those handlers, the generator
loop would also have been abandoned — the handlers sit outside the `for` —
so the code cannot both log a permission error and continue the walk.) -/
def find_empty_dirs_diagnostics (ex canRead : DirPath → Bool)
    (root : DirPath) (t : FSTree) (verbose : Bool) : List LogLine := []

/-! ## Basic walk lemmas -/

theorem walkFrom_node (cr : DirPath → Bool) (p : DirPath) (files : List Name)
    (subdirs : List (Name × FSTree)) :
    walkFrom cr p (.node files subdirs) =
      if cr p then walkChildren cr p subdirs ++ [⟨p, subdirs.map Prod.fst, files⟩]
      else [] := by
  simp [walkFrom]

theorem walkChildren_nil (cr : DirPath → Bool) (p : DirPath) :
    walkChildren cr p [] = [] := by
  simp [walkChildren]

theorem walkChildren_cons (cr : DirPath → Bool) (p : DirPath) (n : Name)
    (t : FSTree) (rest : List (Name × FSTree)) :
    walkChildren cr p ((n, t) :: rest) =
      walkFrom cr (p ++ [n]) t ++ walkChildren cr p rest := by
  simp [walkChildren]

theorem mem_walkChildren_iff {cr : DirPath → Bool} {p : DirPath}
    {subdirs : List (Name × FSTree)} {e : WalkEntry} :
    e ∈ walkChildren cr p subdirs ↔
      ∃ s ∈ subdirs, e ∈ walkFrom cr (p ++ [s.1]) s.2 := by
  induction subdirs with
  | nil => simp [walkChildren_nil]
  | cons s rest ih =>
    obtain ⟨n, t⟩ := s
    simp [walkChildren_cons, List.mem_append, ih, or_and_right, exists_or]

mutual

theorem prefix_of_mem_walkFrom {cr : DirPath → Bool} {p : DirPath} {t : FSTree}
    {e : WalkEntry} (h : e ∈ walkFrom cr p t) : p <+: e.path := by
  cases t with
  | node files subdirs =>
    rw [walkFrom_node] at h
    by_cases hcr : cr p = true
    · rw [if_pos hcr] at h
      rcases List.mem_append.mp h with h1 | h2
      · rcases mem_walkChildren_strict h1 with ⟨s, _, hpre⟩
        exact (List.prefix_append p [s.1]).trans hpre
      · rcases List.mem_singleton.mp h2 with rfl
        exact List.prefix_refl p
    · rw [if_neg hcr] at h
      exact absurd h (List.not_mem_nil e)

theorem mem_walkChildren_strict {cr : DirPath → Bool} {p : DirPath}
    {subdirs : List (Name × FSTree)} {e : WalkEntry}
    (h : e ∈ walkChildren cr p subdirs) :
    ∃ s ∈ subdirs, (p ++ [s.1]) <+: e.path := by
  cases subdirs with
  | nil => rw [walkChildren_nil] at h; exact absurd h (List.not_mem_nil e)
  | cons s rest =>
    obtain ⟨n, t⟩ := s
    rw [walkChildren_cons] at h
    rcases List.mem_append.mp h with h1 | h2
    · exact ⟨(n, t), List.mem_cons_self _ _, prefix_of_mem_walkFrom h1⟩
    · rcases mem_walkChildren_strict h2 with ⟨s', hs', hpre⟩
      exact ⟨s', List.mem_cons_of_mem _ hs', hpre⟩

end

theorem length_lt_of_mem_walkChildren {cr : DirPath → Bool} {p : DirPath}
    {subdirs : List (Name × FSTree)} {e : WalkEntry}
    (h : e ∈ walkChildren cr p subdirs) : p.length < e.path.length := by
  rcases mem_walkChildren_strict h with ⟨s, _, hpre⟩
  have := hpre.length_le
  simp at this
  omega

/-! ## Distinctness of walked paths -/

theorem nodupNames_node {files : List Name} {subdirs : List (Name × FSTree)} :
    nodupNames (.node files subdirs) = true ↔
      ((subdirs.map Prod.fst).Nodup ∧ nodupNamesList subdirs = true) := by
  simp [nodupNames]

theorem nodupNamesList_mem {subdirs : List (Name × FSTree)}
    (h : nodupNamesList subdirs = true) {s : Name × FSTree} (hs : s ∈ subdirs) :
    nodupNames s.2 = true := by
  induction subdirs with
  | nil => exact absurd hs (List.not_mem_nil s)
  | cons s' rest ih =>
    rw [show nodupNamesList (s' :: rest) = (nodupNames s'.2 && nodupNamesList rest)
          from rfl, Bool.and_eq_true] at h
    rcases List.mem_cons.mp hs with rfl | hmem
    · exact h.1
    · exact ih h.2 hmem

theorem getElem?_of_child_prefix {p : DirPath} {n : Name} {q : DirPath}
    (h : (p ++ [n]) <+: q) : q[p.length]? = some n := by
  rcases h with ⟨s, rfl⟩
  rw [List.append_assoc]
  rw [List.getElem?_append_right (le_refl p.length)]
  simp

mutual

theorem walkFrom_paths_nodup {cr : DirPath → Bool} {p : DirPath} {t : FSTree}
    (h : nodupNames t = true) : ((walkFrom cr p t).map WalkEntry.path).Nodup := by
  cases t with
  | node files subdirs =>
    rw [walkFrom_node]
    by_cases hcr : cr p = true
    · rw [if_pos hcr, List.map_append]
      refine List.Nodup.append
        (walkChildren_paths_nodup (nodupNames_node.mp h).1 (nodupNames_node.mp h).2)
        (List.nodup_singleton p) ?_
      intro q hq hq'
      rcases List.mem_map.mp hq with ⟨e, he, rfl⟩
      rcases List.mem_singleton.mp hq' with h'
      have hlt := length_lt_of_mem_walkChildren he
      have h'' : e.path = p := h'
      rw [h''] at hlt
      exact absurd hlt (lt_irrefl _)
    · rw [if_neg hcr]; simp

theorem walkChildren_paths_nodup {cr : DirPath → Bool} {p : DirPath}
    {subdirs : List (Name × FSTree)} (hn : (subdirs.map Prod.fst).Nodup)
    (h : nodupNamesList subdirs = true) :
    ((walkChildren cr p subdirs).map WalkEntry.path).Nodup := by
  cases subdirs with
  | nil => rw [walkChildren_nil]; simp
  | cons s rest =>
    obtain ⟨n, t⟩ := s
    rw [walkChildren_cons, List.map_append]
    rw [show nodupNamesList ((n, t) :: rest) = (nodupNames t && nodupNamesList rest)
          from rfl, Bool.and_eq_true] at h
    rw [List.map_cons, List.nodup_cons] at hn
    refine List.Nodup.append (walkFrom_paths_nodup h.1)
      (walkChildren_paths_nodup hn.2 h.2) ?_
    intro q hq hq'
    rcases List.mem_map.mp hq with ⟨e, he, rfl⟩
    rcases List.mem_map.mp hq' with ⟨e', he', hpath⟩
    have h1 : e.path[p.length]? = some n :=
      getElem?_of_child_prefix (prefix_of_mem_walkFrom he)
    rcases mem_walkChildren_strict he' with ⟨s', hs', hpre⟩
    have h2 : e.path[p.length]? = some s'.1 := by
      rw [← hpath]; exact getElem?_of_child_prefix hpre
    rw [h1] at h2
    have hns : n = s'.1 := Option.some.inj h2
    refine hn.1 ?_
    show n ∈ List.map Prod.fst rest
    rw [hns]
    exact List.mem_map_of_mem Prod.fst hs'

end

/-! ## Lemmas about `find_empty_dirs` -/

theorem keepEntry_eq_some {ex : DirPath → Bool} {e : WalkEntry} {q : DirPath}
    (h : keepEntry ex e = some q) : q = e.path := by
  unfold keepEntry at h
  split at h
  · exact absurd h (Option.noConfusion)
  · split at h
    · split at h
      · exact absurd h (Option.noConfusion)
      · exact (Option.some.inj h).symm
    · exact (Option.some.inj h).symm

theorem mem_find_iff {ex cr : DirPath → Bool} {root : DirPath} {t : FSTree}
    {q : DirPath} :
    q ∈ find_empty_dirs ex cr root t ↔
      ∃ e ∈ walkFrom cr root t, keepEntry ex e = some q :=
  List.mem_filterMap

theorem filterMap_keepEntry_sublist (ex : DirPath → Bool) :
    ∀ l : List WalkEntry,
      (l.filterMap (keepEntry ex)).Sublist (l.map WalkEntry.path) := by
  intro l
  induction l with
  | nil => simp
  | cons e rest ih =>
    rw [List.filterMap_cons, List.map_cons]
    cases h : keepEntry ex e with
    | none => exact ih.cons _
    | some q => rw [keepEntry_eq_some h]; exact ih.cons₂ _

theorem find_sublist_walk_paths (ex cr : DirPath → Bool) (root : DirPath)
    (t : FSTree) :
    (find_empty_dirs ex cr root t).Sublist
      ((walkFrom cr root t).map WalkEntry.path) :=
  filterMap_keepEntry_sublist ex _

theorem find_nodup {ex cr : DirPath → Bool} {root : DirPath} {t : FSTree}
    (h : nodupNames t = true) : (find_empty_dirs ex cr root t).Nodup :=
  List.Nodup.sublist (find_sublist_walk_paths ex cr root t)
    (@walkFrom_paths_nodup cr root t h)

theorem prefix_of_mem_find {ex cr : DirPath → Bool} {root : DirPath} {t : FSTree}
    {q : DirPath} (h : q ∈ find_empty_dirs ex cr root t) : root <+: q := by
  rcases mem_find_iff.mp h with ⟨e, he, hk⟩
  rw [keepEntry_eq_some hk]
  exact prefix_of_mem_walkFrom he

theorem keepEntry_none_of_existing_subdir {ex : DirPath → Bool} {e : WalkEntry}
    (hd : e.dirnames ≠ []) (hex : ∃ d ∈ e.dirnames, ex (e.path ++ [d]) = true) :
    keepEntry ex e = none := by
  unfold keepEntry
  split
  · rfl
  · have hde : e.dirnames.isEmpty = false := by
      cases hdn : e.dirnames.isEmpty
      · rfl
      · exact absurd (List.isEmpty_iff.mp hdn) hd
    rw [if_pos hde, if_pos (List.any_eq_true.mpr hex)]

/-! ## Lemmas about the batch processor -/

theorem process_batch_fst (verbose : Bool) (ex2 : DirPath → Bool)
    (cap : DirPath → TrashOutcome) (batch : List DirPath) :
    (process_batch verbose ex2 cap batch).1 =
      (batch.filter fun p => ex2 p && (cap p == TrashOutcome.ok)).length := by
  suffices h : ∀ (l : List DirPath) (acc : Nat × List LogLine),
      (l.foldl
        (fun acc p =>
          if ex2 p = false then acc
          else
            match cap p with
            | .ok => (acc.1 + 1, acc.2 ++ if verbose then [.movedTo p] else [])
            | .permDenied =>
                (acc.1, acc.2 ++ if verbose then [.permissionDenied p] else [])
            | .notFound => acc
            | .otherError =>
                (acc.1, acc.2 ++ if verbose then [.errorProcessing p] else []))
        acc).1 =
      acc.1 + (l.filter fun p => ex2 p && (cap p == TrashOutcome.ok)).length by
    rw [process_batch, h]
    simp
  intro l
  induction l with
  | nil => intro acc; simp
  | cons p rest ih =>
    intro acc
    rw [List.foldl_cons, ih, List.filter_cons]
    by_cases hx : ex2 p = false
    · have hcond : (ex2 p && (cap p == TrashOutcome.ok)) = false := by
        rw [hx]; rfl
      simp [hx, hcond]
    · rw [Bool.not_eq_false] at hx
      cases hc : cap p with
      | ok =>
        have hcond : (ex2 p && (cap p == TrashOutcome.ok)) = true := by
          rw [hx, hc]; rfl
        simp [hx, hc, hcond]
        omega
      | permDenied =>
        have hcond : (ex2 p && (cap p == TrashOutcome.ok)) = false := by
          rw [hx, hc]; rfl
        simp [hx, hc, hcond]
      | notFound =>
        have hcond : (ex2 p && (cap p == TrashOutcome.ok)) = false := by
          rw [hx, hc]; rfl
        simp [hx, hc, hcond]
      | otherError =>
        have hcond : (ex2 p && (cap p == TrashOutcome.ok)) = false := by
          rw [hx, hc]; rfl
        simp [hx, hc, hcond]

theorem process_batch_snd (verbose : Bool) (ex2 : DirPath → Bool)
    (cap : DirPath → TrashOutcome) (batch : List DirPath) :
    (process_batch verbose ex2 cap batch).2 =
      (if verbose then
        batch.filterMap fun p =>
          if ex2 p = false then none
          else
            match cap p with
            | .ok => some (.movedTo p)
            | .permDenied => some (.permissionDenied p)
            | .notFound => none
            | .otherError => some (.errorProcessing p)
      else []) := by
  suffices h : ∀ (l : List DirPath) (acc : Nat × List LogLine),
      (l.foldl
        (fun acc p =>
          if ex2 p = false then acc
          else
            match cap p with
            | .ok => (acc.1 + 1, acc.2 ++ if verbose then [.movedTo p] else [])
            | .permDenied =>
                (acc.1, acc.2 ++ if verbose then [.permissionDenied p] else [])
            | .notFound => acc
            | .otherError =>
                (acc.1, acc.2 ++ if verbose then [.errorProcessing p] else []))
        acc).2 =
      acc.2 ++
        (if verbose then
          l.filterMap fun p =>
            if ex2 p = false then none
            else
              match cap p with
              | .ok => some (.movedTo p)
              | .permDenied => some (.permissionDenied p)
              | .notFound => none
              | .otherError => some (.errorProcessing p)
        else []) by
    rw [process_batch, h]
    simp
  intro l
  induction l with
  | nil =>
    intro acc
    simp
  | cons p rest ih =>
    intro acc
    rw [List.foldl_cons, ih, List.filterMap_cons]
    by_cases hx : ex2 p = false
    · simp [hx]
    · rw [Bool.not_eq_false] at hx
      cases hc : cap p with
      | ok =>
        by_cases hv : verbose = true
        · simp [hx, hc, hv]
        · rw [Bool.not_eq_true] at hv
          simp [hx, hc, hv]
      | permDenied =>
        by_cases hv : verbose = true
        · simp [hx, hc, hv]
        · rw [Bool.not_eq_true] at hv
          simp [hx, hc, hv]
      | notFound => simp [hx, hc]
      | otherError =>
        by_cases hv : verbose = true
        · simp [hx, hc, hv]
        · rw [Bool.not_eq_true] at hv
          simp [hx, hc, hv]

theorem list_empty_dirs_eq (m : EmptyDirectoryManager) (ex canRead : DirPath → Bool)
    (t : FSTree) :
    list_empty_dirs m ex canRead t =
      ⟨find_empty_dirs ex canRead m.root_path t,
       (find_empty_dirs ex canRead m.root_path t).length⟩ := by
  rw [list_empty_dirs]
  suffices h : ∀ (l : List DirPath) (acc : ListRun),
      (l.foldl (fun acc d => ⟨acc.printed ++ [d], acc.count + 1⟩) acc) =
        ⟨acc.printed ++ l, acc.count + l.length⟩ by
    rw [h]; simp
  intro l
  induction l with
  | nil => intro acc; simp
  | cons d rest ih =>
    intro acc
    rw [List.foldl_cons, ih]
    simp
    omega

theorem count_empty_dirs_eq (m : EmptyDirectoryManager) (ex canRead : DirPath → Bool)
    (t : FSTree) :
    count_empty_dirs m ex canRead t = (find_empty_dirs ex canRead m.root_path t).length := by
  rw [count_empty_dirs]
  induction find_empty_dirs ex canRead m.root_path t with
  | nil => rfl
  | cons d rest ih => simp [ih]; omega

theorem trash_empty_dirs_count (m : EmptyDirectoryManager)
    (ex canRead ex2 : DirPath → Bool) (cap : DirPath → TrashOutcome) (t : FSTree)
    (tick : Bool) :
    (trash_empty_dirs m ex canRead ex2 cap t tick).count =
      (find_empty_dirs ex canRead m.root_path t).length := by
  rw [trash_empty_dirs]
  split
  · rfl
  · split
    · rfl
    · rfl

theorem trash_empty_dirs_flushes (m : EmptyDirectoryManager)
    (ex canRead ex2 : DirPath → Bool) (cap : DirPath → TrashOutcome) (t : FSTree)
    (tick : Bool) :
    (trash_empty_dirs m ex canRead ex2 cap t tick).flushes =
      (if (find_empty_dirs ex canRead m.root_path t).length ≥ m.batch_size then
        [find_empty_dirs ex canRead m.root_path t]
      else if (find_empty_dirs ex canRead m.root_path t).isEmpty = false then
        [find_empty_dirs ex canRead m.root_path t]
      else []) := by
  rw [trash_empty_dirs]
  split
  · rfl
  · split
    · rfl
    · rfl

theorem trash_empty_dirs_success (m : EmptyDirectoryManager)
    (ex canRead ex2 : DirPath → Bool) (cap : DirPath → TrashOutcome) (t : FSTree)
    (tick : Bool) :
    (trash_empty_dirs m ex canRead ex2 cap t tick).success_count =
      ((find_empty_dirs ex canRead m.root_path t).filter
        fun p => ex2 p && (cap p == TrashOutcome.ok)).length := by
  rw [trash_empty_dirs]
  split
  · exact process_batch_fst _ _ _ _
  · split
    · exact process_batch_fst _ _ _ _
    · rename_i h2
      have hnil : find_empty_dirs ex canRead m.root_path t = [] := by
        cases h' : (find_empty_dirs ex canRead m.root_path t).isEmpty
        · exact absurd h' h2
        · exact List.isEmpty_iff.mp h'
      simp [hnil]

/-! ## Lookup and the fixed-filesystem-state characterization -/

theorem lookup_nil (t : FSTree) : lookup t [] = some t := by
  cases t with
  | node files subdirs => rfl

theorem lookup_cons (files : List Name) (subdirs : List (Name × FSTree))
    (n : Name) (rest : DirPath) :
    lookup (.node files subdirs) (n :: rest) =
      (match subdirs.find? (fun s => s.1 == n) with
       | some s => lookup s.2 rest
       | none => none) := rfl

theorem lookup_append (t : FSTree) (r w : DirPath) :
    lookup t (r ++ w) = (lookup t r).bind (fun u => lookup u w) := by
  induction r generalizing t with
  | nil => rw [List.nil_append, lookup_nil]; rfl
  | cons n rest ih =>
    cases t with
    | node files subdirs =>
      rw [List.cons_append, lookup_cons, lookup_cons]
      cases subdirs.find? (fun s => s.1 == n) with
      | none => rfl
      | some u => exact ih u.2

theorem find?_of_nodup_mem {subdirs : List (Name × FSTree)}
    (hn : (subdirs.map Prod.fst).Nodup) {n : Name} {t : FSTree}
    (hmem : (n, t) ∈ subdirs) :
    subdirs.find? (fun s => s.1 == n) = some (n, t) := by
  induction subdirs with
  | nil => exact absurd hmem (List.not_mem_nil _)
  | cons s rest ih =>
    rw [List.map_cons, List.nodup_cons] at hn
    rcases List.mem_cons.mp hmem with rfl | hmem'
    · rw [List.find?_cons_of_pos _ (by simp)]
    · have hne : s.1 ≠ n := by
        intro h
        exact hn.1 (h ▸ List.mem_map_of_mem Prod.fst hmem')
      rw [List.find?_cons_of_neg _ (by simpa using hne)]
      exact ih hn.2 hmem'

theorem lookup_nodupNames {t : FSTree} {r : DirPath} {u : FSTree}
    (hnd : nodupNames t = true) (hl : lookup t r = some u) :
    nodupNames u = true := by
  induction r generalizing t with
  | nil => rw [lookup_nil] at hl; exact Option.some.inj hl ▸ hnd
  | cons n rest ih =>
    cases t with
    | node files subdirs =>
      rw [lookup_cons] at hl
      cases hf : subdirs.find? (fun s => s.1 == n) with
      | none => rw [hf] at hl; exact absurd hl (Option.noConfusion)
      | some s =>
        rw [hf] at hl
        exact ih (nodupNamesList_mem (nodupNames_node.mp hnd).2
          (List.mem_of_find?_eq_some hf)) hl

theorem walkFrom_readAll (p : DirPath) (files : List Name)
    (subdirs : List (Name × FSTree)) :
    walkFrom readAll p (.node files subdirs) =
      walkChildren readAll p subdirs ++ [⟨p, subdirs.map Prod.fst, files⟩] := by
  rw [walkFrom_node]
  rfl

theorem walkFrom_complete {r : DirPath} :
    ∀ {p : DirPath} {t : FSTree} {files : List Name}
      {subdirs : List (Name × FSTree)},
      lookup t r = some (.node files subdirs) →
      (⟨p ++ r, subdirs.map Prod.fst, files⟩ : WalkEntry) ∈
        walkFrom readAll p t := by
  induction r with
  | nil =>
    intro p t files subdirs hl
    cases t with
    | node fs sd =>
      rw [lookup_nil] at hl
      rcases FSTree.node.inj (Option.some.inj hl) with ⟨h1, h2⟩
      rw [walkFrom_readAll]
      refine List.mem_append_right _ ?_
      rw [List.append_nil, ← h1, ← h2]
      exact List.mem_singleton.mpr rfl
  | cons n rest ih =>
    intro p t files subdirs hl
    cases t with
    | node fs sd =>
      rw [lookup_cons] at hl
      cases hf : sd.find? (fun s => s.1 == n) with
      | none => rw [hf] at hl; exact absurd hl (Option.noConfusion)
      | some s =>
        rw [hf] at hl
        have hsmem : s ∈ sd := List.mem_of_find?_eq_some hf
        have hsn : s.1 = n := by simpa using List.find?_some hf
        rw [walkFrom_readAll]
        refine List.mem_append_left _ ?_
        refine mem_walkChildren_iff.mpr ⟨s, hsmem, ?_⟩
        have := ih (p := p ++ [s.1]) (t := s.2) hl
        rw [List.append_assoc] at this
        rw [← hsn]
        exact this

mutual

theorem walkFrom_sound {cr : DirPath → Bool} {p : DirPath} {t : FSTree}
    (hnd : nodupNames t = true) {e : WalkEntry} (he : e ∈ walkFrom cr p t) :
    ∃ r subdirs, e.path = p ++ r ∧
      lookup t r = some (.node e.filenames subdirs) ∧
      e.dirnames = subdirs.map Prod.fst := by
  cases t with
  | node files subdirs =>
    rw [walkFrom_node] at he
    by_cases hcr : cr p = true
    · rw [if_pos hcr] at he
      rcases List.mem_append.mp he with h1 | h2
      · rcases walkChildren_sound (nodupNames_node.mp hnd).1
          (nodupNames_node.mp hnd).2 h1 with ⟨s, hs, r, sub', hpath, hl, hdn⟩
        refine ⟨s.1 :: r, sub', ?_, ?_, hdn⟩
        · rw [hpath, List.append_assoc]; rfl
        · rw [lookup_cons,
              find?_of_nodup_mem (nodupNames_node.mp hnd).1
                (show (s.1, s.2) ∈ subdirs by simpa using hs)]
          exact hl
      · rcases List.mem_singleton.mp h2 with rfl
        exact ⟨[], subdirs, by simp, lookup_nil _, rfl⟩
    · rw [if_neg hcr] at he
      exact absurd he (List.not_mem_nil e)

theorem walkChildren_sound {cr : DirPath → Bool} {p : DirPath}
    {subdirs : List (Name × FSTree)} (hn : (subdirs.map Prod.fst).Nodup)
    (hl : nodupNamesList subdirs = true) {e : WalkEntry}
    (he : e ∈ walkChildren cr p subdirs) :
    ∃ s ∈ subdirs, ∃ r sub',
      e.path = (p ++ [s.1]) ++ r ∧
      lookup s.2 r = some (.node e.filenames sub') ∧
      e.dirnames = sub'.map Prod.fst := by
  cases subdirs with
  | nil =>
    rw [walkChildren_nil] at he
    exact absurd he (List.not_mem_nil e)
  | cons s rest =>
    obtain ⟨n, t⟩ := s
    rw [walkChildren_cons] at he
    rw [show nodupNamesList ((n, t) :: rest) =
          (nodupNames t && nodupNamesList rest) from rfl,
        Bool.and_eq_true] at hl
    rw [List.map_cons, List.nodup_cons] at hn
    rcases List.mem_append.mp he with h1 | h2
    · rcases walkFrom_sound hl.1 h1 with ⟨r, sub', hpath, hlk, hdn⟩
      exact ⟨(n, t), List.mem_cons_self _ _, r, sub', hpath, hlk, hdn⟩
    · rcases walkChildren_sound hn.2 hl.2 h2 with ⟨s', hs', r, sub', h⟩
      exact ⟨s', List.mem_cons_of_mem _ hs', r, sub', h⟩

end

theorem static_subdir_exists {cr : DirPath → Bool} {root : DirPath}
    {t : FSTree} (hnd : nodupNames t = true) {e : WalkEntry}
    (he : e ∈ walkFrom cr root t) {d : Name} (hd : d ∈ e.dirnames) :
    staticExists root t (e.path ++ [d]) = true := by
  rcases walkFrom_sound hnd he with ⟨r, subdirs, hpath, hl, hdn⟩
  rw [staticExists, Bool.and_eq_true]
  have hnsub : nodupNames (.node e.filenames subdirs) = true :=
    lookup_nodupNames hnd hl
  constructor
  · rw [List.isPrefixOf_iff_prefix, hpath, List.append_assoc]
    exact List.prefix_append root (r ++ [d])
  · rw [hpath, List.append_assoc, List.drop_left, lookup_append, hl]
    show (lookup (.node e.filenames subdirs) [d]).isSome = true
    rw [hdn] at hd
    rcases List.mem_map.mp hd with ⟨s, hs, hsd⟩
    have hfind : subdirs.find? (fun u => u.1 == d) = some (s.1, s.2) := by
      rw [← hsd]
      exact find?_of_nodup_mem (nodupNames_node.mp hnsub).1
        (show (s.1, s.2) ∈ subdirs by simpa using hs)
    rw [lookup_cons, hfind]
    show (lookup s.2 []).isSome = true
    rw [lookup_nil]
    rfl

theorem keepEntry_pass {ex : DirPath → Bool} {e : WalkEntry} {q : DirPath}
    (h : keepEntry ex e = some q) :
    e.filenames = [] ∧
      (e.dirnames = [] ∨
        (e.dirnames.any fun d => ex (e.path ++ [d])) = false) := by
  unfold keepEntry at h
  split at h
  · exact absurd h Option.noConfusion
  · rename_i hf
    have hfe : e.filenames = [] := by
      cases h' : e.filenames.isEmpty with
      | false => exact absurd h' hf
      | true => exact List.isEmpty_iff.mp h'
    split at h
    · split at h
      · exact absurd h Option.noConfusion
      · rename_i hany
        refine ⟨hfe, Or.inr ?_⟩
        cases h' : e.dirnames.any (fun d => ex (e.path ++ [d])) with
        | false => rfl
        | true => exact absurd h' hany
    · rename_i hdn
      refine ⟨hfe, Or.inl ?_⟩
      cases h' : e.dirnames.isEmpty with
      | false => exact absurd h' hdn
      | true => exact List.isEmpty_iff.mp h'

theorem mem_static_find_sound {cr : DirPath → Bool} {root : DirPath}
    {t : FSTree} {q : DirPath} (hnd : nodupNames t = true)
    (hq : q ∈ find_empty_dirs (staticExists root t) cr root t) :
    ∃ r, q = root ++ r ∧ lookup t r = some (.node [] []) := by
  rcases mem_find_iff.mp hq with ⟨e, he, hk⟩
  have hqe : q = e.path := keepEntry_eq_some hk
  rcases keepEntry_pass hk with ⟨hfe, hde⟩
  rcases walkFrom_sound hnd he with ⟨r, subdirs, hpath, hl, hdn⟩
  have hsub : subdirs = [] := by
    rcases hde with hde | hde
    · rw [hde] at hdn
      exact List.map_eq_nil_iff.mp hdn.symm
    · by_contra hne
      obtain ⟨s, hs⟩ := List.exists_mem_of_ne_nil subdirs hne
      have hd : s.1 ∈ e.dirnames := by
        rw [hdn]; exact List.mem_map_of_mem Prod.fst hs
      have hst := static_subdir_exists hnd he hd
      rw [List.any_eq_true.mpr ⟨s.1, hd, hst⟩] at hde
      exact Bool.noConfusion hde
  rw [hfe, hsub] at hl
  exact ⟨r, by rw [hqe, hpath], hl⟩

theorem mem_static_find_iff {root : DirPath} {t : FSTree}
    (hnd : nodupNames t = true) (r : DirPath) :
    root ++ r ∈ find_empty_dirs (staticExists root t) readAll root t ↔
      lookup t r = some (.node [] []) := by
  constructor
  · intro h
    rcases mem_static_find_sound hnd h with ⟨u, heq, hl⟩
    rw [List.append_cancel_left heq]
    exact hl
  · intro hl
    have hmem := walkFrom_complete (p := root) hl
    exact mem_find_iff.mpr ⟨⟨root ++ r, [], []⟩, hmem, rfl⟩

/-! ## Ordering: descendants precede their ancestors in the walk -/

theorem strict_prefix_length_lt {q1 q2 : DirPath} (hpre : q2 <+: q1)
    (hne : q1 ≠ q2) : q2.length < q1.length := by
  rcases Nat.lt_or_ge q2.length q1.length with h | h
  · exact h
  · exact absurd (hpre.eq_of_length (Nat.le_antisymm hpre.length_le h)).symm hne

theorem prefix_of_mem_child_paths {cr : DirPath → Bool} {p : DirPath} {t : FSTree}
    {q : DirPath} (h : q ∈ (walkFrom cr p t).map WalkEntry.path) : p <+: q := by
  rcases List.mem_map.mp h with ⟨e, he, rfl⟩
  exact prefix_of_mem_walkFrom he

theorem mem_children_paths_strict {cr : DirPath → Bool} {p : DirPath}
    {subdirs : List (Name × FSTree)} {q : DirPath}
    (h : q ∈ (walkChildren cr p subdirs).map WalkEntry.path) :
    ∃ s ∈ subdirs, (p ++ [s.1]) <+: q := by
  rcases List.mem_map.mp h with ⟨e, he, rfl⟩
  exact mem_walkChildren_strict he

mutual

theorem pair_sublist_walkFrom {cr : DirPath → Bool} {p : DirPath} {t : FSTree}
    (hnd : nodupNames t = true) {q1 q2 : DirPath} (hpre : q2 <+: q1)
    (hne : q1 ≠ q2) (h1 : q1 ∈ (walkFrom cr p t).map WalkEntry.path)
    (h2 : q2 ∈ (walkFrom cr p t).map WalkEntry.path) :
    [q1, q2].Sublist ((walkFrom cr p t).map WalkEntry.path) := by
  cases t with
  | node files subdirs =>
    rw [walkFrom_node] at h1 h2 ⊢
    by_cases hcr : cr p = true
    · rw [if_pos hcr] at h1 h2 ⊢
      rw [List.map_append] at h1 h2 ⊢
      rcases List.mem_append.mp h2 with hc2 | hp2
      · have hlen2 : p.length < q2.length := by
          rcases mem_children_paths_strict hc2 with ⟨s, _, hsp⟩
          have := hsp.length_le
          simp at this
          omega
        have hlen1 : q2.length < q1.length := strict_prefix_length_lt hpre hne
        have hc1 : q1 ∈ (walkChildren cr p subdirs).map WalkEntry.path := by
          rcases List.mem_append.mp h1 with h | h
          · exact h
          · exfalso
            rcases List.mem_map.mp h with ⟨e, he, rfl⟩
            rcases List.mem_singleton.mp he with rfl
            simp at hlen1
            omega
        exact ((pair_sublist_walkChildren (nodupNames_node.mp hnd).1
          (nodupNames_node.mp hnd).2 hpre hne hc1 hc2).trans
          (List.sublist_append_left _ _))
      · rcases List.mem_map.mp hp2 with ⟨e, he, hep⟩
        rcases List.mem_singleton.mp he with rfl
        have hq2p : q2 = p := hep.symm
        have hc1 : q1 ∈ (walkChildren cr p subdirs).map WalkEntry.path := by
          rcases List.mem_append.mp h1 with h | h
          · exact h
          · exfalso
            rcases List.mem_map.mp h with ⟨e', he', hep'⟩
            rcases List.mem_singleton.mp he' with rfl
            exact hne (hep'.symm.trans hq2p.symm)
        rw [hq2p]
        exact List.Sublist.append (List.singleton_sublist.mpr hc1)
          (List.Sublist.refl _)
    · rw [if_neg hcr] at h1
      simp at h1

theorem pair_sublist_walkChildren {cr : DirPath → Bool} {p : DirPath}
    {subdirs : List (Name × FSTree)} (hn : (subdirs.map Prod.fst).Nodup)
    (hl : nodupNamesList subdirs = true) {q1 q2 : DirPath} (hpre : q2 <+: q1)
    (hne : q1 ≠ q2) (h1 : q1 ∈ (walkChildren cr p subdirs).map WalkEntry.path)
    (h2 : q2 ∈ (walkChildren cr p subdirs).map WalkEntry.path) :
    [q1, q2].Sublist ((walkChildren cr p subdirs).map WalkEntry.path) := by
  cases subdirs with
  | nil =>
    rw [walkChildren_nil] at h1
    simp at h1
  | cons s rest =>
    obtain ⟨n, t⟩ := s
    rw [walkChildren_cons] at h1 h2 ⊢
    rw [List.map_append] at h1 h2 ⊢
    rw [show nodupNamesList ((n, t) :: rest) =
          (nodupNames t && nodupNamesList rest) from rfl,
        Bool.and_eq_true] at hl
    rw [List.map_cons, List.nodup_cons] at hn
    have hconf : (p ++ [n]) <+: q1 →
        (∃ s' ∈ rest, (p ++ [s'.1]) <+: q1) → False := by
      rintro hA ⟨s', hs', hB⟩
      have heq : p ++ [n] = p ++ [s'.1] :=
        (List.prefix_of_prefix_length_le hA hB (by simp)).eq_of_length (by simp)
      have hns : n = s'.1 := by
        have := List.append_cancel_left heq
        simpa using this
      refine hn.1 ?_
      show n ∈ List.map Prod.fst rest
      rw [hns]
      exact List.mem_map_of_mem Prod.fst hs'
    rcases List.mem_append.mp h2 with hA2 | hB2
    · have hA1 : q1 ∈ (walkFrom cr (p ++ [n]) t).map WalkEntry.path := by
        rcases List.mem_append.mp h1 with h | h
        · exact h
        · exact (hconf ((prefix_of_mem_child_paths hA2).trans hpre)
            (mem_children_paths_strict h)).elim
      exact ((pair_sublist_walkFrom hl.1 hpre hne hA1 hA2).trans
        (List.sublist_append_left _ _))
    · have hB1 : q1 ∈ (walkChildren cr p rest).map WalkEntry.path := by
        rcases List.mem_append.mp h1 with h | h
        · rcases mem_children_paths_strict hB2 with ⟨s', hs', hsp⟩
          exact (hconf (prefix_of_mem_child_paths h)
            ⟨s', hs', hsp.trans hpre⟩).elim
        · exact h
      exact ((pair_sublist_walkChildren hn.2 hl.2 hpre hne hB1 hB2).trans
        (List.sublist_append_right _ _))

end

theorem pair_sublist_of_sublist {α : Type} {L O : List α}
    (hs : O.Sublist L) : L.Nodup → ∀ {a b : α}, a ∈ O → b ∈ O →
      [a, b].Sublist L → [a, b].Sublist O := by
  induction hs with
  | slnil =>
    intro _ a b ha _ _
    exact absurd ha (List.not_mem_nil a)
  | cons x hs ih =>
    intro hnd a b ha hb hab
    rcases List.nodup_cons.mp hnd with ⟨hx, hnd2⟩
    have hax : a ≠ x := fun h => hx (h ▸ hs.subset ha)
    cases hab with
    | cons _ h => exact ih hnd2 ha hb h
    | cons₂ _ h => exact absurd rfl hax
  | cons₂ x hs ih =>
    intro hnd a b ha hb hab
    rcases List.nodup_cons.mp hnd with ⟨hx, hnd2⟩
    by_cases hax : a = x
    · subst hax
      by_cases hbx : b = a
      · subst hbx
        exfalso
        cases hab with
        | cons _ h => exact hx (h.subset (List.mem_cons_self _ _))
        | cons₂ _ h => exact hx (h.subset (List.mem_singleton.mpr rfl))
      · rcases List.mem_cons.mp hb with h | hbo
        · exact absurd h hbx
        · exact List.Sublist.cons₂ a (List.singleton_sublist.mpr hbo)
    · rcases List.mem_cons.mp ha with h | hao
      · exact absurd h hax
      · cases hab with
        | cons₂ _ h => exact absurd rfl hax
        | cons _ h2 =>
          rcases List.mem_cons.mp hb with hbh | hbo
          · exfalso
            exact hx (hbh ▸ h2.subset (List.mem_cons_of_mem a
              (List.mem_singleton.mpr rfl)))
          · exact List.Sublist.cons x (ih hnd2 hao hbo h2)

theorem pair_sublist_positions {α : Type} {a b : α} {l : List α}
    (h : [a, b].Sublist l) :
    ∃ i j : Nat, i < j ∧ l[i]? = some a ∧ l[j]? = some b := by
  induction l with
  | nil => exact absurd (List.sublist_nil.mp h) (by simp)
  | cons x l ih =>
    cases h with
    | cons₂ _ h2 =>
      rcases List.mem_iff_getElem?.mp
        (List.singleton_sublist.mp h2) with ⟨j, hj⟩
      exact ⟨0, j + 1, Nat.succ_pos j, by simp, by simpa using hj⟩
    | cons _ h2 =>
      rcases ih h2 with ⟨i, j, hij, hi, hj⟩
      exact ⟨i + 1, j + 1, Nat.succ_lt_succ hij, by simpa using hi,
        by simpa using hj⟩

/-! ## Permission-pruned walks -/

mutual

theorem walkFrom_readable_cone {cr : DirPath → Bool} {p : DirPath}
    {t : FSTree} {e : WalkEntry} (he : e ∈ walkFrom cr p t) :
    ∀ q, p <+: q → q <+: e.path → cr q = true := by
  cases t with
  | node files subdirs =>
    rw [walkFrom_node] at he
    by_cases hcr : cr p = true
    · rw [if_pos hcr] at he
      intro q hpq hqe
      by_cases hqp : q = p
      · rw [hqp]; exact hcr
      · rcases List.mem_append.mp he with h1 | h2
        · exact walkChildren_readable_cone h1 q hpq hqe hqp
        · exfalso
          rcases List.mem_singleton.mp h2 with rfl
          exact hqp (hqe.eq_of_length (Nat.le_antisymm hqe.length_le
            hpq.length_le))
    · rw [if_neg hcr] at he
      exact absurd he (List.not_mem_nil e)

theorem walkChildren_readable_cone {cr : DirPath → Bool} {p : DirPath}
    {subdirs : List (Name × FSTree)} {e : WalkEntry}
    (he : e ∈ walkChildren cr p subdirs) :
    ∀ q, p <+: q → q <+: e.path → q ≠ p → cr q = true := by
  cases subdirs with
  | nil =>
    rw [walkChildren_nil] at he
    exact absurd he (List.not_mem_nil e)
  | cons s rest =>
    obtain ⟨n, t⟩ := s
    rw [walkChildren_cons] at he
    intro q hpq hqe hqp
    rcases List.mem_append.mp he with h1 | h2
    · have hq : (p ++ [n]) <+: q := by
        refine List.prefix_of_prefix_length_le (prefix_of_mem_walkFrom h1) hqe ?_
        have := strict_prefix_length_lt hpq hqp
        simp
        omega
      exact walkFrom_readable_cone h1 q hq hqe
    · exact walkChildren_readable_cone h2 q hpq hqe hqp

end

mutual

theorem walkFrom_congr {cr cr2 : DirPath → Bool} {p : DirPath} {t : FSTree}
    (h : ∀ q, p <+: q → cr q = cr2 q) : walkFrom cr p t = walkFrom cr2 p t := by
  cases t with
  | node files subdirs =>
    rw [walkFrom_node, walkFrom_node, h p (List.prefix_refl p),
      walkChildren_congr h]

theorem walkChildren_congr {cr cr2 : DirPath → Bool} {p : DirPath}
    {subdirs : List (Name × FSTree)} (h : ∀ q, p <+: q → cr q = cr2 q) :
    walkChildren cr p subdirs = walkChildren cr2 p subdirs := by
  cases subdirs with
  | nil => rw [walkChildren_nil, walkChildren_nil]
  | cons s rest =>
    obtain ⟨n, t⟩ := s
    rw [walkChildren_cons, walkChildren_cons,
      walkFrom_congr (fun q hq => h q ((List.prefix_append p [n]).trans hq)),
      walkChildren_congr h]

end

theorem walkChildren_split {cr : DirPath → Bool} {p : DirPath}
    {subdirs : List (Name × FSTree)} {n : Name} {tn : FSTree}
    (hmem : (n, tn) ∈ subdirs) :
    ∃ X Y, walkChildren cr p subdirs = X ++ walkFrom cr (p ++ [n]) tn ++ Y := by
  induction subdirs with
  | nil => exact absurd hmem (List.not_mem_nil _)
  | cons s rest ih =>
    rcases List.mem_cons.mp hmem with h | hmem'
    · refine ⟨[], walkChildren cr p rest, ?_⟩
      rw [← h, walkChildren_cons, List.nil_append]
    · rcases ih hmem' with ⟨X, Y, hXY⟩
      obtain ⟨m, u⟩ := s
      refine ⟨walkFrom cr (p ++ [m]) u ++ X, Y, ?_⟩
      rw [walkChildren_cons, hXY]
      simp [List.append_assoc]

/-! ## Claim theorems -/

/-- C1: as built, `trash_empty_dirs` checks the flush threshold only once,
after the accumulation loop has drained the whole traversal (line 130 is
outside the loop body).  On five empty leaf directories with
`batch_size = 2` the run performs a single flush of size 5 — not three
flushes of sizes 2, 2, 1 — so the pending buffer reaches 5 > 2 entries.
The final summary still reports 5/5 successes. -/
theorem C1_flush_only_after_drain :
    (trash_empty_dirs ⟨["root"], 2, false⟩ (staticExists ["root"] fiveLeafTree)
        readAll (fun _ => true) (fun _ => TrashOutcome.ok) fiveLeafTree
        false).flushes.map List.length = [5] ∧
    (trash_empty_dirs ⟨["root"], 2, false⟩ (staticExists ["root"] fiveLeafTree)
        readAll (fun _ => true) (fun _ => TrashOutcome.ok) fiveLeafTree
        false).flushes.map List.length ≠ [2, 2, 1] ∧
    (trash_empty_dirs ⟨["root"], 2, false⟩ (staticExists ["root"] fiveLeafTree)
        readAll (fun _ => true) (fun _ => TrashOutcome.ok) fiveLeafTree
        false).success_count = 5 ∧
    (trash_empty_dirs ⟨["root"], 2, false⟩ (staticExists ["root"] fiveLeafTree)
        readAll (fun _ => true) (fun _ => TrashOutcome.ok) fiveLeafTree
        false).count = 5 := by
  refine ⟨by decide, by decide, by decide, by decide⟩

/-- C3: for every directory visited during the traversal that has
subdirectory entries in its listing, if any entry re-resolved to a full
path still exists according to the existence oracle at the moment of the
check, that directory is skipped: its path is not in the output of
`find_empty_dirs` (snapshot well-formed: sibling names distinct). -/
theorem C3_existing_subdir_skips_parent {ex canRead : DirPath → Bool}
    {root : DirPath} {t : FSTree} {e : WalkEntry}
    (hnd : nodupNames t = true) (he : e ∈ walkFrom canRead root t)
    (hd : e.dirnames ≠ [])
    (hex : ∃ d ∈ e.dirnames, ex (e.path ++ [d]) = true) :
    e.path ∉ find_empty_dirs ex canRead root t := by
  intro hmem
  rcases mem_find_iff.mp hmem with ⟨e', he', hk⟩
  have hpath : e'.path = e.path := (keepEntry_eq_some hk).symm
  have hee : e' = e :=
    List.inj_on_of_nodup_map (walkFrom_paths_nodup hnd) he' he hpath
  rw [hee, keepEntry_none_of_existing_subdir hd hex] at hk
  exact Option.noConfusion hk

/-- C3 witness: in the chain snapshot `x/y/z`, the root's listing contains
`x`, which still exists in the fixed filesystem state, so the root is not
yielded. -/
theorem C3_existing_subdir_skips_parent_witness :
    ["root"] ∉ find_empty_dirs (staticExists ["root"] chainTree) readAll
      ["root"] chainTree :=
  C3_existing_subdir_skips_parent (e := ⟨["root"], ["x"], []⟩) (by decide)
    (by decide) (by decide) ⟨"x", by decide, by decide⟩

/-- C6: the value returned by `count_empty_dirs` equals the count returned
by `list_empty_dirs` — and also the number of paths `list_empty_dirs`
prints — for the same manager, oracles and snapshot. -/
theorem C6_count_eq_list (m : EmptyDirectoryManager)
    (ex canRead : DirPath → Bool) (t : FSTree) :
    count_empty_dirs m ex canRead t = (list_empty_dirs m ex canRead t).count ∧
    count_empty_dirs m ex canRead t =
      (list_empty_dirs m ex canRead t).printed.length := by
  rw [count_empty_dirs_eq, list_empty_dirs_eq]
  exact ⟨rfl, rfl⟩

/-- C7: `_process_batch` recovers every per-item failure locally: the
returned value counts exactly the paths that still exist at the moment of
the attempt and whose trash call succeeds (missing paths, permission
failures and other failures are skipped, never fatal), so it is at most
the batch length; a whole `trash_empty_dirs` run returns at most the total
number of directories observed; and the batch's printed lines are exactly
one line per attempted path — `movedTo` on success, `permissionDenied` on
a permission failure (logged and skipped), `errorProcessing` on any other
failure (logged and skipped) — while a path that no longer exists at the
pre-check, or whose trash call raises `FileNotFoundError`, produces no
line and no abort: every remaining batch element is still processed. -/
theorem C7_per_item_failures_recovered (m : EmptyDirectoryManager)
    (ex canRead ex2 : DirPath → Bool) (cap : DirPath → TrashOutcome)
    (t : FSTree) (tick v : Bool) (batch : List DirPath) :
    (process_batch v ex2 cap batch).1 =
      (batch.filter fun p => ex2 p && (cap p == TrashOutcome.ok)).length ∧
    (process_batch v ex2 cap batch).1 ≤ batch.length ∧
    (trash_empty_dirs m ex canRead ex2 cap t tick).success_count =
      ((find_empty_dirs ex canRead m.root_path t).filter
        fun p => ex2 p && (cap p == TrashOutcome.ok)).length ∧
    (trash_empty_dirs m ex canRead ex2 cap t tick).success_count ≤
      (trash_empty_dirs m ex canRead ex2 cap t tick).count ∧
    (process_batch v ex2 cap batch).2 =
      (if v then
        batch.filterMap fun p =>
          if ex2 p = false then none
          else
            match cap p with
            | .ok => some (LogLine.movedTo p)
            | .permDenied => some (LogLine.permissionDenied p)
            | .notFound => none
            | .otherError => some (LogLine.errorProcessing p)
      else []) := by
  refine ⟨process_batch_fst v ex2 cap batch, ?_, trash_empty_dirs_success .., ?_,
    process_batch_snd v ex2 cap batch⟩
  · rw [process_batch_fst]
    exact List.length_filter_le _ _
  · rw [trash_empty_dirs_success, trash_empty_dirs_count]
    exact List.length_filter_le _ _

/-- C9: the `verbose` flag influences only printed diagnostics: the values
returned by the list, count and trash operations (and the batches trash
flushes) are identical for `verbose = true` and `verbose = false`. -/
theorem C9_verbose_only_affects_output (m : EmptyDirectoryManager)
    (ex canRead ex2 : DirPath → Bool) (cap : DirPath → TrashOutcome)
    (t : FSTree) (tick : Bool) :
    list_empty_dirs {m with verbose := true} ex canRead t =
      list_empty_dirs {m with verbose := false} ex canRead t ∧
    count_empty_dirs {m with verbose := true} ex canRead t =
      count_empty_dirs {m with verbose := false} ex canRead t ∧
    (trash_empty_dirs {m with verbose := true} ex canRead ex2 cap t
        tick).success_count =
      (trash_empty_dirs {m with verbose := false} ex canRead ex2 cap t
        tick).success_count ∧
    (trash_empty_dirs {m with verbose := true} ex canRead ex2 cap t
        tick).count =
      (trash_empty_dirs {m with verbose := false} ex canRead ex2 cap t
        tick).count ∧
    (trash_empty_dirs {m with verbose := true} ex canRead ex2 cap t
        tick).flushes =
      (trash_empty_dirs {m with verbose := false} ex canRead ex2 cap t
        tick).flushes := by
  refine ⟨?_, rfl, ?_, ?_, ?_⟩
  · rw [list_empty_dirs_eq, list_empty_dirs_eq]
  · rw [trash_empty_dirs_success, trash_empty_dirs_success]
  · rw [trash_empty_dirs_count, trash_empty_dirs_count]
  · rw [trash_empty_dirs_flushes, trash_empty_dirs_flushes]

/-- C10: every path yielded by the traversal, printed by list, or handed to
the trash capability in a flushed batch extends the resolved root path:
nothing outside the root's subtree is ever produced. -/
theorem C10_everything_under_root (m : EmptyDirectoryManager)
    (ex canRead ex2 : DirPath → Bool) (cap : DirPath → TrashOutcome)
    (t : FSTree) (tick : Bool) :
    (∀ q ∈ find_empty_dirs ex canRead m.root_path t, m.root_path <+: q) ∧
    (∀ q ∈ (list_empty_dirs m ex canRead t).printed, m.root_path <+: q) ∧
    (∀ b ∈ (trash_empty_dirs m ex canRead ex2 cap t tick).flushes,
      ∀ q ∈ b, m.root_path <+: q) := by
  refine ⟨fun q hq => prefix_of_mem_find hq, ?_, ?_⟩
  · rw [list_empty_dirs_eq]
    exact fun q hq => prefix_of_mem_find hq
  · rw [trash_empty_dirs_flushes]
    intro b hb
    split at hb
    · rw [List.mem_singleton.mp hb]
      exact fun q hq => prefix_of_mem_find hq
    · split at hb
      · rw [List.mem_singleton.mp hb]
        exact fun q hq => prefix_of_mem_find hq
      · exact absurd hb (List.not_mem_nil b)

/-- C2 counterexample: on a fixed filesystem state the claim fails.  In the
chain snapshot `x/y/z` (all empty, nested), `root/x/y` has zero direct
files and its only subdirectory subtree `z` is recursively empty
(`hasAnyFile` is false), yet the traversal yields only `root/x/y/z` —
`root/x/y` and `root/x` are skipped because their subdirectories still
exist at the moment of the re-check — so the output has 1 element, not the
claimed 3. -/
theorem C2_counterexample_chain :
    find_empty_dirs (staticExists ["root"] chainTree) readAll ["root"]
        chainTree = [["root", "x", "y", "z"]] ∧
    ["root", "x", "y"] ∉
      find_empty_dirs (staticExists ["root"] chainTree) readAll ["root"]
        chainTree ∧
    lookup chainTree ["x", "y"] = some (.node [] [("z", leafDir)]) ∧
    hasAnyFile (.node [] [("z", leafDir)]) = false ∧
    (find_empty_dirs (staticExists ["root"] chainTree) readAll ["root"]
        chainTree).length ≠ 3 := by
  refine ⟨by decide, by decide, rfl, rfl, by decide⟩

/-- C2 amended: on a fixed filesystem state, the traversal's output
contains each directory at most once, and a directory appears iff it has
zero direct files and zero subdirectory entries (a leaf-empty directory) —
directories whose subdirectories still exist are skipped, so for the chain
`x/y/z` only `x/y/z` is output (total 1, not 3). -/
theorem C2_leaf_empty_exactly_once {root : DirPath} {t : FSTree}
    (hnd : nodupNames t = true) :
    (find_empty_dirs (staticExists root t) readAll root t).Nodup ∧
    ∀ r, (root ++ r ∈ find_empty_dirs (staticExists root t) readAll root t ↔
      lookup t r = some (.node [] [])) :=
  ⟨find_nodup hnd, fun r => mem_static_find_iff hnd r⟩

/-- C2 witness: in the chain snapshot the leaf `root/x/y/z` is yielded
exactly once (it is a member and the output has no duplicates). -/
theorem C2_leaf_empty_exactly_once_witness :
    ["root"] ++ ["x", "y", "z"] ∈
      find_empty_dirs (staticExists ["root"] chainTree) readAll ["root"]
        chainTree :=
  ((C2_leaf_empty_exactly_once (by decide)).2 ["x", "y", "z"]).mpr rfl

/-- C4: soundness of the traversal on a fixed filesystem state: a directory
whose subtree contains a regular file anywhere — directly (hidden or not:
any entry of `files`) or via a non-empty descendant — is never yielded,
whatever the readability oracle. -/
theorem C4_dir_with_file_never_yielded {cr : DirPath → Bool}
    {root : DirPath} {t : FSTree} {r : DirPath} {sub : FSTree}
    (hnd : nodupNames t = true) (hl : lookup t r = some sub)
    (hf : hasAnyFile sub = true) :
    root ++ r ∉ find_empty_dirs (staticExists root t) cr root t := by
  intro hmem
  rcases mem_static_find_sound hnd hmem with ⟨u, heq, hl'⟩
  rw [List.append_cancel_left heq] at hl
  rw [hl'] at hl
  have hsub : sub = .node [] [] := (Option.some.inj hl).symm
  rw [hsub] at hf
  exact Bool.noConfusion hf

/-- C4 witness: in scenario A's snapshot, `root/b` contains `file.txt` and
is not yielded. -/
theorem C4_dir_with_file_never_yielded_witness :
    ["root"] ++ ["b"] ∉
      find_empty_dirs (staticExists ["root"] scenATree) readAll ["root"]
        scenATree :=
  @C4_dir_with_file_never_yielded readAll ["root"] scenATree ["b"]
    (.node ["file.txt"] [("sub", leafDir)]) (by decide) rfl rfl

/-- C10 witness: on the chain snapshot, the yielded path `root/x/y/z`
extends the root. -/
theorem C10_everything_under_root_witness :
    ["root"] <+: ["root", "x", "y", "z"] :=
  (C10_everything_under_root ⟨["root"], 1000, true⟩
      (staticExists ["root"] chainTree) readAll readAll (fun _ => TrashOutcome.ok)
      chainTree false).1
    ["root", "x", "y", "z"] (by decide)

/-- C5: strict post-order: for any directory D and any direct subdirectory
S = D/n of D, if both appear in the traversal's output sequence then S
appears strictly before D (both as an order-preserving pair and in terms
of positions), for every existence and readability oracle. -/
theorem C5_child_before_parent {ex cr : DirPath → Bool} {root : DirPath}
    {t : FSTree} (hnd : nodupNames t = true) {D : DirPath} {n : Name}
    (hS : D ++ [n] ∈ find_empty_dirs ex cr root t)
    (hD : D ∈ find_empty_dirs ex cr root t) :
    [D ++ [n], D].Sublist (find_empty_dirs ex cr root t) ∧
    ∃ i j : Nat, i < j ∧ (find_empty_dirs ex cr root t)[i]? = some (D ++ [n]) ∧
      (find_empty_dirs ex cr root t)[j]? = some D := by
  have hsub := find_sublist_walk_paths ex cr root t
  have hndp := @walkFrom_paths_nodup cr root t hnd
  have hne : D ++ [n] ≠ D := by simp
  have hpair : [D ++ [n], D].Sublist
      ((walkFrom cr root t).map WalkEntry.path) :=
    pair_sublist_walkFrom hnd (List.prefix_append D [n]) hne
      (hsub.subset hS) (hsub.subset hD)
  have hpo : [D ++ [n], D].Sublist (find_empty_dirs ex cr root t) :=
    pair_sublist_of_sublist hsub hndp hS hD hpair
  exact ⟨hpo, pair_sublist_positions hpo⟩

/-- C5 witness: when the existence re-check reports every subdirectory as
already gone (as after a run that trashed the whole chain), both `root/x`
and `root` are yielded on the chain snapshot, and `root/x` comes strictly
before `root`. -/
theorem C5_child_before_parent_witness :
    [["root"] ++ ["x"], ["root"]].Sublist
      (find_empty_dirs (fun _ => false) readAll ["root"] chainTree) ∧
    ∃ i j : Nat, i < j ∧
      (find_empty_dirs (fun _ => false) readAll ["root"]
        chainTree)[i]? = some (["root"] ++ ["x"]) ∧
      (find_empty_dirs (fun _ => false) readAll ["root"]
        chainTree)[j]? = some ["root"] :=
  C5_child_before_parent (by decide) (by decide) (by decide)

/-- C8 counterexample: the claim's "the error is logged" part fails.  With
`a/`, `bad/` (unreadable) and `c/` all empty, the walk primitive
(`os.walk`, default `onerror=None`) suppresses the permission error
silently: the traversal prints no diagnostic line, even verbose, although
`root/bad` exists on disk and is pruned (never yielded) while the sibling
subtrees `a` and `c` are still fully reported. -/
theorem C8_counterexample_no_log :
    find_empty_dirs_diagnostics (staticExists ["root"] permEmptyTree)
        permOracle ["root"] permEmptyTree true = [] ∧
    staticExists ["root"] permEmptyTree ["root", "bad"] = true ∧
    ["root", "bad"] ∉
      find_empty_dirs (staticExists ["root"] permEmptyTree) permOracle
        ["root"] permEmptyTree ∧
    ["root", "a"] ∈
      find_empty_dirs (staticExists ["root"] permEmptyTree) permOracle
        ["root"] permEmptyTree ∧
    ["root", "c"] ∈
      find_empty_dirs (staticExists ["root"] permEmptyTree) permOracle
        ["root"] permEmptyTree :=
  ⟨rfl, by decide, by decide, by decide, by decide⟩

/-- C8 amended: a permission failure on a directory listing mid-walk is
suppressed silently by the walk primitive — nothing is logged and nothing
is raised; that directory and its unreadable descendants are never yielded
(every yielded path has only readable ancestors below the root); and the
traversal continues: any sibling subtree whose cone is fully readable is
still fully reported, as a contiguous block identical to a fully readable
traversal of that subtree. -/
theorem C8_permission_error_prunes_silently {ex cr : DirPath → Bool}
    {root : DirPath} {fs : List Name} {subdirs : List (Name × FSTree)}
    {n : Name} {tn : FSTree} (hcr : cr root = true)
    (hmem : (n, tn) ∈ subdirs)
    (hcone : ∀ q, (root ++ [n]) <+: q → cr q = true) :
    (∀ y ∈ find_empty_dirs ex cr root (.node fs subdirs),
      ∀ q, root <+: q → q <+: y → cr q = true) ∧
    (∃ l1 l2, find_empty_dirs ex cr root (.node fs subdirs) =
      l1 ++ find_empty_dirs ex readAll (root ++ [n]) tn ++ l2) ∧
    find_empty_dirs_diagnostics ex cr root (.node fs subdirs) true = [] := by
  refine ⟨?_, ?_, rfl⟩
  · intro y hy q hrq hqy
    have hyp : y ∈ (walkFrom cr root (.node fs subdirs)).map WalkEntry.path :=
      (find_sublist_walk_paths ex cr root _).subset hy
    rcases List.mem_map.mp hyp with ⟨e, he, rfl⟩
    exact walkFrom_readable_cone he q hrq hqy
  · rcases @walkChildren_split cr root subdirs n tn hmem with ⟨X, Y, hXY⟩
    have hseg : walkFrom cr (root ++ [n]) tn =
        walkFrom readAll (root ++ [n]) tn :=
      walkFrom_congr (fun q hq => (hcone q hq).trans rfl)
    refine ⟨(X.filterMap (keepEntry ex)),
      ((Y ++ [WalkEntry.mk root (subdirs.map Prod.fst) fs]).filterMap
        (keepEntry ex)), ?_⟩
    rw [find_empty_dirs, walkFrom_node, if_pos hcr, hXY, hseg]
    rw [find_empty_dirs]
    simp [List.filterMap_append]

/-- C8 witness: scenario E variant with `a/`, `bad/` (unreadable), `c/`:
every yielded path passes only readable directories, the fully readable
sibling `a` is reported exactly as by an unrestricted walk of its subtree,
and no diagnostic is printed. -/
theorem C8_permission_error_prunes_silently_witness :
    (∀ y ∈ find_empty_dirs (staticExists ["root"] permEmptyTree) permOracle
        ["root"] (.node [] [("a", leafDir), ("bad", leafDir), ("c", leafDir)]),
      ∀ q, ["root"] <+: q → q <+: y → permOracle q = true) ∧
    (∃ l1 l2,
      find_empty_dirs (staticExists ["root"] permEmptyTree) permOracle
        ["root"] (.node [] [("a", leafDir), ("bad", leafDir), ("c", leafDir)]) =
      l1 ++ find_empty_dirs (staticExists ["root"] permEmptyTree) readAll
        (["root"] ++ ["a"]) leafDir ++ l2) ∧
    find_empty_dirs_diagnostics (staticExists ["root"] permEmptyTree)
      permOracle ["root"]
      (.node [] [("a", leafDir), ("bad", leafDir), ("c", leafDir)]) true = [] :=
  C8_permission_error_prunes_silently (by decide) (List.mem_cons_self _ _)
    (fun q hq => by
      rcases hq with ⟨s, rfl⟩
      cases s with
      | nil => decide
      | cons x xs =>
        show ((["root", "a"] ++ x :: xs) != ["root", "bad"]) = true
        simp only [bne_iff_ne, ne_eq]
        intro h
        have hlen := congrArg List.length h
        simp at hlen)

end EmptyDirManager
